import Mathlib

/-!
Shallow embedding of the oslo.cache connection pool
(src/oslo_cache/_memcache_pool.py) and of the dictionary backend
(src/oslo_cache/backends/dictionary.py), together with theorems checking
the specification's claims about them.

Modelling conventions:
* Python floats used as absolute timestamps (`time.time()`) are modelled
  as `Nat`; only ordering and addition are used by the code.
* The Python `int` counter `_acquired` is modelled as `Int`.
* The idle deque `self.queue` is a `List`, written left (oldest, the
  `popleft` end) to right (newest, the `append`/`pop` end).
* Fallible Python calls are reified: `_create_connection` becomes an
  `Option` argument (`none` = the call raised), `_destroy_connection`
  becomes a function into `Except`.
* The pool is used by one sequential caller at a time; blocking waits in
  `queue.Queue.get` that can only be resolved by another thread are
  modelled as the timeout outcome.
-/

namespace OsloCache

variable {T : Type} {E : Type} {A : Type}

/-- `_PoolItem` from `_memcache_pool.py`: an idle-queue entry holding the
absolute expiry time `ttl` and the pooled connection. -/
structure PoolItem (T : Type) where
  ttl : Nat
  connection : T
deriving DecidableEq, Repr

/-- The state of `ConnectionPool`: `maxsize`, `_unused_timeout`,
the `_acquired` counter and the idle deque `self.queue`. -/
structure ConnectionPool (T : Type) where
  maxsize : Nat
  unusedTimeout : Nat
  acquired : Int
  queue : List (PoolItem T)
deriving DecidableEq, Repr

/-- `ConnectionPool._qsize`: `maxsize - self._acquired` when `maxsize` is
truthy, else the constant 1 (meaning a free connection is always
available for an unbounded pool). -/
def qsize (p : ConnectionPool T) : Int :=
  if p.maxsize ≠ 0 then (p.maxsize : Int) - p.acquired else 1

/-- The `while self.queue[0].ttl < now: popleft` loop of
`ConnectionPool._drop_expired_connections`, returning the destroyed
items (in destruction order) and the remaining queue.  The loop stops at
the first item whose `ttl` is not below `now`, or when the queue is
empty (`IndexError`). -/
def dropExpiredLoop (now : Nat) : List (PoolItem T) → List (PoolItem T) × List (PoolItem T)
  | [] => ([], [])
  | it :: rest =>
    if it.ttl < now then
      let r := dropExpiredLoop now rest
      (it :: r.1, r.2)
    else
      ([], it :: rest)

/-- `ConnectionPool._drop_expired_connections` acting on the pool state
(the destroyed connections leave the model). -/
def dropExpiredConnections (now : Nat) (p : ConnectionPool T) : ConnectionPool T :=
  { p with queue := (dropExpiredLoop now p.queue).2 }

/-- Outcome of `ConnectionPool.acquire` up to the point a connection is
obtained: either a connection, or the `queue.Empty` timeout re-raised as
`exception.QueueEmpty`, or an exception escaping `_create_connection`. -/
inductive AcquireResult (T : Type) where
  | ok (conn : T)
  | queueEmpty
  | createFailed
deriving DecidableEq, Repr

/-- `queue.Queue.get` with the overridden `_qsize` and `_get`: the wait
loop proceeds exactly when `_qsize() != 0` (sequentially, `_qsize() == 0`
means the timeout elapses and `queue.Empty` is raised, which `acquire`
re-raises as `exception.QueueEmpty`); `_get` pops the newest idle item
(`self.queue.pop()`, the right end) or, on `IndexError`, calls
`_create_connection` (argument `create`; `none` means the call raised),
then increments `_acquired`.  When the creation step raises, `_acquired`
has not yet been incremented and the exception propagates. -/
def getConn (create : Option T) (p : ConnectionPool T) :
    AcquireResult T × ConnectionPool T :=
  if qsize p = 0 then
    (AcquireResult.queueEmpty, p)
  else
    match p.queue.getLast? with
    | some it =>
      (AcquireResult.ok it.connection,
        { p with queue := p.queue.dropLast, acquired := p.acquired + 1 })
    | none =>
      match create with
      | some c => (AcquireResult.ok c, { p with acquired := p.acquired + 1 })
      | none => (AcquireResult.createFailed, p)

/-- `ConnectionPool.acquire` up to the `yield`:
`_drop_expired_connections` followed by `queue.Queue.get`. -/
def acquireConn (create : Option T) (now : Nat) (p : ConnectionPool T) :
    AcquireResult T × ConnectionPool T :=
  getConn create (dropExpiredConnections now p)

/-- The release half of `ConnectionPool.acquire`'s `finally` block:
`queue.Queue.put(conn, block=False)` raises `queue.Full` exactly when
`maxsize > 0` and `_qsize() >= maxsize`, in which case the connection is
destroyed (`Bool` result `true`) and, in the source, neither `_put` nor
any `_acquired` update runs; otherwise `ConnectionPool._put` appends a
`_PoolItem` with `ttl = now + _unused_timeout` and decrements
`_acquired`. -/
def releaseConn (now : Nat) (conn : T) (p : ConnectionPool T) : ConnectionPool T × Bool :=
  if p.maxsize ≠ 0 ∧ (p.maxsize : Int) ≤ qsize p then
    (p, true)
  else
    ({ p with
        queue := p.queue ++ [⟨now + p.unusedTimeout, conn⟩],
        acquired := p.acquired - 1 }, false)

/-- Result of running a caller's scoped block under
`ConnectionPool.acquire`: the body's result (normal value or exception,
which propagates only after the release bookkeeping in `finally`), or a
failure to obtain a connection at all (in which case the body never
runs). -/
inductive ScopedOutcome (T : Type) (E : Type) (A : Type) where
  | done (r : Except E A)
  | acquireFailed (r : AcquireResult T)

/-- The whole `with pool.acquire() as conn:` pattern: obtain a
connection at time `nowA`, run `body`, and on every exit path of the
body release the connection at time `nowR` via the `finally` block. -/
def scopedAcquire (create : Option T) (nowA nowR : Nat) (body : T → Except E A)
    (p : ConnectionPool T) : ScopedOutcome T E A × ConnectionPool T :=
  match acquireConn create nowA p with
  | (AcquireResult.ok conn, p1) =>
    let r := body conn
    let rel := releaseConn nowR conn p1
    (ScopedOutcome.done r, rel.1)
  | (r, p1) => (ScopedOutcome.acquireFailed r, p1)

/-- The `while True: self.queue.pop(); self._destroy_connection(...)`
loop of `ConnectionPool.__del__`: items are popped from the right end
until `IndexError`, each popped connection gets one destruction attempt
(`destroy`), and a failed attempt is only logged — the loop continues.
Returns the queue left after the loop (always empty) and the list of
destruction attempts in execution order. -/
def delConnections (destroy : T → Except E Unit) :
    List (PoolItem T) → List (PoolItem T) × List (T × Except E Unit)
  | [] => ([], [])
  | it :: rest =>
    let r := delConnections destroy rest
    (r.1, r.2 ++ [(it.connection, destroy it.connection)])

/-- Claim C5: at the start of every `acquire()`, exactly the contiguous
prefix of the idle queue whose `ttl` is strictly below the current time
is removed and destroyed; the scan stops at the first non-expired item,
and no non-expired item is ever destroyed. -/
theorem reap_expired_front_segment (now : Nat) (q : List (PoolItem T)) :
    (dropExpiredLoop now q).1 ++ (dropExpiredLoop now q).2 = q ∧
    (dropExpiredLoop now q).1 = q.takeWhile (fun it => decide (it.ttl < now)) ∧
    (dropExpiredLoop now q).2 = q.dropWhile (fun it => decide (it.ttl < now)) ∧
    ((dropExpiredLoop now q).1.all fun it => decide (it.ttl < now)) = true ∧
    ((dropExpiredLoop now q).2.head?.all fun it => decide (now ≤ it.ttl)) = true := by
  induction q with
  | nil => simp [dropExpiredLoop]
  | cons it rest ih =>
    by_cases h : it.ttl < now
    · simpa [dropExpiredLoop, List.takeWhile, List.dropWhile, h] using ih
    · simp [dropExpiredLoop, List.takeWhile, List.dropWhile, h, Nat.le_of_not_lt h]

/-- Claim C8: pool teardown attempts to destroy every idle client — one
attempt per queue item, in pop order (newest first), regardless of which
destruction attempts fail — and the queue is empty afterwards. -/
theorem teardown_attempts_all (destroy : T → Except E Unit) (q : List (PoolItem T)) :
    (delConnections destroy q).1 = [] ∧
    ((delConnections destroy q).2.map Prod.fst) = (q.map PoolItem.connection).reverse ∧
    (delConnections destroy q).2 =
      (q.map fun it => (it.connection, destroy it.connection)).reverse := by
  induction q with
  | nil => simp [delConnections]
  | cons it rest ih =>
    simp [delConnections, ih.1, ih.2.1, ih.2.2]

/-- One sequential pool operation: an `acquire()` attempt (with any
outcome of `_create_connection`) or the release half of the `finally`
block. -/
inductive PoolStep : ConnectionPool T → ConnectionPool T → Prop
  | acquire (create : Option T) (now : Nat) (p : ConnectionPool T) :
      PoolStep p (acquireConn create now p).2
  | release (now : Nat) (conn : T) (p : ConnectionPool T) :
      PoolStep p (releaseConn now conn p).1

/-- Pool states reachable from a freshly constructed
`ConnectionPool(maxsize, unused_timeout, ...)` with `maxsize = n ≥ 1`
by any sequence of acquire and release operations. -/
inductive PoolReach (n u : Nat) : ConnectionPool T → Prop
  | init : 1 ≤ n → PoolReach n u ⟨n, u, 0, []⟩
  | step {p q : ConnectionPool T} : PoolReach n u p → PoolStep p q → PoolReach n u q

/-- The inductive invariant behind the capacity bound. -/
@[reducible]
def PoolInv (n : Nat) (p : ConnectionPool T) : Prop :=
  p.maxsize = n ∧ 0 ≤ p.acquired ∧ p.acquired + (p.queue.length : Int) ≤ (n : Int)

theorem dropExpiredLoop_len_le (now : Nat) (q : List (PoolItem T)) :
    (dropExpiredLoop now q).2.length ≤ q.length := by
  induction q with
  | nil => simp [dropExpiredLoop]
  | cons it rest ih =>
    by_cases h : it.ttl < now
    · simp only [dropExpiredLoop, if_pos h]
      exact Nat.le_succ_of_le ih
    · simp [dropExpiredLoop, if_neg h]

theorem poolInv_dropExpired {n : Nat} {p : ConnectionPool T} (now : Nat)
    (h : PoolInv n p) : PoolInv n (dropExpiredConnections now p) := by
  obtain ⟨h1, h2, h3⟩ := h
  refine ⟨h1, h2, ?_⟩
  have hl := dropExpiredLoop_len_le now p.queue
  simp only [dropExpiredConnections]
  omega

theorem poolInv_getConn {n : Nat} {p : ConnectionPool T} (create : Option T)
    (hn : 1 ≤ n) (h : PoolInv n p) : PoolInv n (getConn create p).2 := by
  obtain ⟨h1, h2, h3⟩ := h
  unfold getConn
  by_cases hq : qsize p = 0
  · simp only [if_pos hq]
    exact ⟨h1, h2, h3⟩
  · simp only [if_neg hq]
    have hmax : p.maxsize ≠ 0 := by omega
    have hq2 : (p.maxsize : Int) - p.acquired ≠ 0 := by
      simpa [qsize, hmax] using hq
    cases hlast : p.queue.getLast? with
    | some it =>
      have hne : p.queue ≠ [] := by
        intro hnil
        rw [hnil] at hlast
        simp at hlast
      have hlen : p.queue.dropLast.length = p.queue.length - 1 :=
        List.length_dropLast _
      have hpos : 1 ≤ p.queue.length := List.length_pos.mpr hne
      refine ⟨h1, ?_, ?_⟩
      · show 0 ≤ p.acquired + 1
        omega
      · show p.acquired + 1 + (p.queue.dropLast.length : Int) ≤ (n : Int)
        rw [hlen]
        omega
    | none =>
      cases create with
      | some c =>
        have hnil : p.queue = [] := List.getLast?_eq_none_iff.mp hlast
        refine ⟨h1, ?_, ?_⟩
        · show 0 ≤ p.acquired + 1
          omega
        · show p.acquired + 1 + (p.queue.length : Int) ≤ (n : Int)
          rw [hnil]
          simp only [List.length_nil]
          omega
      | none => exact ⟨h1, h2, h3⟩

theorem poolInv_release {n : Nat} {p : ConnectionPool T} (now : Nat) (conn : T)
    (hn : 1 ≤ n) (h : PoolInv n p) : PoolInv n (releaseConn now conn p).1 := by
  obtain ⟨h1, h2, h3⟩ := h
  unfold releaseConn
  by_cases hf : p.maxsize ≠ 0 ∧ (p.maxsize : Int) ≤ qsize p
  · simp only [if_pos hf]
    exact ⟨h1, h2, h3⟩
  · simp only [if_neg hf]
    have hmax : p.maxsize ≠ 0 := by omega
    have hlt : ¬ (p.maxsize : Int) ≤ qsize p := fun hc => hf ⟨hmax, hc⟩
    unfold qsize at hlt
    rw [if_pos hmax] at hlt
    refine ⟨h1, ?_, ?_⟩
    · show 0 ≤ p.acquired - 1
      omega
    · show p.acquired - 1 +
        (((p.queue ++
            [({ ttl := now + p.unusedTimeout, connection := conn } : PoolItem T)]).length :
          Nat) : Int) ≤ (n : Int)
      simp only [List.length_append, List.length_cons, List.length_nil]
      omega

theorem poolReach_inv {n u : Nat} {p : ConnectionPool T} (h : PoolReach n u p) :
    1 ≤ n ∧ PoolInv n p := by
  induction h with
  | init h1 => exact ⟨h1, rfl, le_refl _, by simp⟩
  | step _ hs ih =>
    cases hs with
    | acquire create now q =>
      exact ⟨ih.1, poolInv_getConn create ih.1 (poolInv_dropExpired now ih.2)⟩
    | release now conn q => exact ⟨ih.1, poolInv_release now conn ih.1 ih.2⟩

/-- Claim C1: for every pool constructed with capacity `n ≥ 1` and every
sequence of acquire and release operations, at every point in time the
outstanding count `_acquired` plus the length of the idle queue is at
most `n`. -/
theorem capacity_invariant {n u : Nat} {p : ConnectionPool T} (h : PoolReach n u p) :
    p.acquired + (p.queue.length : Int) ≤ (n : Int) :=
  (poolReach_inv h).2.2.2

/-- Witness for `capacity_invariant`: the pool of capacity 2 reached by
one successful acquire from a fresh pool. -/
theorem capacity_invariant_witness :
    (acquireConn (some 5) 0 (⟨2, 7, 0, []⟩ : ConnectionPool Nat)).2.acquired +
      ((acquireConn (some 5) 0 (⟨2, 7, 0, []⟩ : ConnectionPool Nat)).2.queue.length : Int) ≤
      ((2 : Nat) : Int) :=
  capacity_invariant
    (PoolReach.step (PoolReach.init (by decide)) (PoolStep.acquire (some 5) 0 _))

theorem getConn_ok_shape {create : Option T} {p p1 : ConnectionPool T} {conn : T}
    (h : getConn create p = (AcquireResult.ok conn, p1)) :
    p1.acquired = p.acquired + 1 ∧ p1.maxsize = p.maxsize ∧
      p1.unusedTimeout = p.unusedTimeout := by
  unfold getConn at h
  by_cases hq : qsize p = 0
  · rw [if_pos hq] at h
    simp at h
  · rw [if_neg hq] at h
    cases hlast : p.queue.getLast? with
    | some it =>
      rw [hlast] at h
      have h2 := congrArg Prod.snd h
      dsimp only at h2
      rw [← h2]
      exact ⟨rfl, rfl, rfl⟩
    | none =>
      rw [hlast] at h
      cases create with
      | some c =>
        have h2 := congrArg Prod.snd h
        dsimp only at h2
        rw [← h2]
        exact ⟨rfl, rfl, rfl⟩
      | none => simp at h

/-- Claim C4: whenever the caller's scoped block under `acquire()` exits
— by normal return or by an exception — the `finally` block releases the
client exactly once.  Starting from any pool state with a non-negative
outstanding count, the non-blocking put cannot raise `queue.Full` (that
would need `_acquired <= 0` while this client is still counted
outstanding), so the client is appended to the idle queue with the
fresh expiry `now + unused_timeout` and `_acquired` is decremented; the
body's result — value or exception — propagates only after this
bookkeeping. -/
theorem release_on_every_exit (create : Option T) (nowA nowR : Nat)
    (body : T → Except E A) (p p1 : ConnectionPool T) (conn : T)
    (hacq : 0 ≤ p.acquired)
    (hok : acquireConn create nowA p = (AcquireResult.ok conn, p1)) :
    scopedAcquire create nowA nowR body p =
      (ScopedOutcome.done (body conn),
        { p1 with
            queue := p1.queue ++
              [{ ttl := nowR + p1.unusedTimeout, connection := conn }],
            acquired := p1.acquired - 1 }) ∧
    (releaseConn nowR conn p1).2 = false ∧
    p1.acquired = p.acquired + 1 := by
  have hok2 : getConn create (dropExpiredConnections nowA p) =
      (AcquireResult.ok conn, p1) := hok
  have hshape := getConn_ok_shape hok2
  have ha : (dropExpiredConnections nowA p).acquired = p.acquired := rfl
  have h1 : 1 ≤ p1.acquired := by omega
  have hfull : ¬ (p1.maxsize ≠ 0 ∧ (p1.maxsize : Int) ≤ qsize p1) := by
    rintro ⟨hm, hle⟩
    unfold qsize at hle
    rw [if_pos hm] at hle
    omega
  have hrel : releaseConn nowR conn p1 =
      ({ p1 with
          queue := p1.queue ++
            [{ ttl := nowR + p1.unusedTimeout, connection := conn }],
          acquired := p1.acquired - 1 }, false) := by
    unfold releaseConn
    rw [if_neg hfull]
  refine ⟨?_, ?_, by omega⟩
  · unfold scopedAcquire
    rw [hok]
    dsimp only
    rw [hrel]
  · rw [hrel]

/-- Witness for `release_on_every_exit`: a capacity-1 pool, a body that
raises; the client is still returned to the idle queue with expiry
`9 + 7 = 16` and the outstanding count drops back to 0. -/
theorem release_on_every_exit_witness :
    scopedAcquire (some 0) 5 9 (fun _ : Nat => (Except.error 42 : Except Nat Nat))
        ⟨1, 7, 0, []⟩ =
      (ScopedOutcome.done (Except.error 42), ⟨1, 7, 0, [⟨16, 0⟩]⟩) ∧
    (releaseConn 9 0 (⟨1, 7, 1, []⟩ : ConnectionPool Nat)).2 = false := by
  have h := release_on_every_exit (some 0) 5 9
    (fun _ : Nat => (Except.error 42 : Except Nat Nat))
    ⟨1, 7, 0, []⟩ ⟨1, 7, 1, []⟩ 0 (by decide) (by decide)
  exact ⟨h.1, h.2.1⟩

/-- Claim C6: when `acquire()` cannot obtain a client within the
acquire timeout (`_qsize() == 0` after reaping, with no other thread to
release), it raises the dedicated pool-exhausted condition
`exception.QueueEmpty` — distinct from a successful acquisition and
from a creation failure — and the caller's scoped block is never
entered with any client.  The `QueueEmpty` class itself is absent from
src/oslo_cache/exception.py (only its raise site and tests are in src);
it is modelled from the spec as the distinct `AcquireResult.queueEmpty`
condition. -/
theorem acquire_timeout_distinct (create : Option T) (now : Nat)
    (p : ConnectionPool T) (h : qsize (dropExpiredConnections now p) = 0) :
    (acquireConn create now p).1 = AcquireResult.queueEmpty ∧
    (∀ c : T, (AcquireResult.ok c : AcquireResult T) ≠ AcquireResult.queueEmpty) ∧
    (AcquireResult.queueEmpty : AcquireResult T) ≠ AcquireResult.createFailed ∧
    ∀ body : T → Except E A,
      (scopedAcquire create now now body p).1 =
        ScopedOutcome.acquireFailed AcquireResult.queueEmpty := by
  have hg : getConn create (dropExpiredConnections now p) =
      (AcquireResult.queueEmpty, dropExpiredConnections now p) := by
    unfold getConn
    rw [if_pos h]
  refine ⟨?_, ?_, ?_, ?_⟩
  · unfold acquireConn
    rw [hg]
  · intro c hc
    simp at hc
  · intro hc
    simp at hc
  · intro body
    unfold scopedAcquire acquireConn
    rw [hg]

/-- Witness for `acquire_timeout_distinct`: capacity-1 pool with its one
client outstanding, so `_qsize() = 1 - 1 = 0`. -/
theorem acquire_timeout_distinct_witness :
    (acquireConn (none : Option Nat) 3 ⟨1, 7, 1, []⟩).1 = AcquireResult.queueEmpty ∧
    (AcquireResult.ok 5 : AcquireResult Nat) ≠ AcquireResult.queueEmpty ∧
    (scopedAcquire (none : Option Nat) 3 3
        (fun _ : Nat => (Except.ok 0 : Except Nat Nat)) ⟨1, 7, 1, []⟩).1 =
      ScopedOutcome.acquireFailed AcquireResult.queueEmpty := by
  have h := @acquire_timeout_distinct Nat Nat Nat (none : Option Nat) 3
    (⟨1, 7, 1, []⟩ : ConnectionPool Nat) (by decide)
  exact ⟨h.1, h.2.1 5, h.2.2.2 _⟩

/-- Claim C7: if `_create_connection` raises during `acquire()` (it is
invoked only when no idle client is available), the error propagates,
`_acquired` is unchanged (the increment comes after the creation call)
and nothing is added to the idle queue. -/
theorem create_failure_atomic (now : Nat) (p : ConnectionPool T)
    (hq : (dropExpiredConnections now p).queue = [])
    (hs : qsize (dropExpiredConnections now p) ≠ 0) :
    acquireConn none now p = (AcquireResult.createFailed, dropExpiredConnections now p) ∧
    (acquireConn none now p).2.acquired = p.acquired ∧
    (acquireConn none now p).2.queue = [] := by
  have hg : acquireConn none now p =
      (AcquireResult.createFailed, dropExpiredConnections now p) := by
    unfold acquireConn getConn
    rw [if_neg hs, hq]
    rfl
  refine ⟨hg, ?_, ?_⟩
  · rw [hg]
    rfl
  · rw [hg]
    exact hq

/-- Witness for `create_failure_atomic`: empty pool of capacity 2 with
a failing creation step. -/
theorem create_failure_atomic_witness :
    acquireConn (none : Option Nat) 0 ⟨2, 7, 0, []⟩ =
      (AcquireResult.createFailed, ⟨2, 7, 0, []⟩) ∧
    (acquireConn (none : Option Nat) 0 ⟨2, 7, 0, []⟩).2.acquired = 0 ∧
    (acquireConn (none : Option Nat) 0 ⟨2, 7, 0, []⟩).2.queue = [] := by
  have h := create_failure_atomic 0 (⟨2, 7, 0, []⟩ : ConnectionPool Nat)
    (by decide) (by decide)
  exact ⟨h.1, h.2.1, h.2.2⟩

/-- A `memcache._Host` as the pool sees it: only the `deaduntil`
timestamp matters to the pool logic.  (`mark_dead`'s socket close is an
external side effect, and its `deaduntil` write in
`MemcacheClientPool._get` is unconditionally overwritten by the
following `host.deaduntil = deaduntil` assignment.) -/
structure Host where
  deaduntil : Nat
deriving DecidableEq, Repr

/-- `_MemcacheClient`: the per-node host list is all the pool reads or
writes of a client. -/
structure MClient where
  servers : List Host
deriving DecidableEq, Repr

/-- `MemcacheClientPool._create_connection`: a fresh client has one host
per configured url, each initialised live (`deaduntil = 0`). -/
def newMClient (n : Nat) : MClient :=
  ⟨List.replicate n ⟨0⟩⟩

/-- The `for deaduntil, host in zip(self._hosts_deaduntil, conn.servers)`
loop of `MemcacheClientPool._get`: every host paired by the zip ends
with `host.deaduntil = deaduntil` taken from the tracker (any
`mark_dead` call is immediately overwritten by that assignment); hosts
beyond the tracker's length are untouched. -/
def propagateDead : List Nat → List Host → List Host
  | d :: ds, _h :: hs => ⟨d⟩ :: propagateDead ds hs
  | [], hs => hs
  | _ :: _, [] => []

/-- The `for i, host in zip(itertools.count(), conn.servers)` loop of
`MemcacheClientPool._put`: for every host of the released client, a
stale tracker entry (`deaduntil <= now`) is set to the host's reported
`deaduntil` when that is in the future, else reset to 0; an entry still
in the future is left untouched ("Do nothing if we already know this
host is dead").  Tracker entries beyond the client's host list are
untouched.  (A client with more hosts than the tracker would raise
`IndexError`; this pool never builds such a client.) -/
def harvestDead (now : Nat) : List Nat → List Host → List Nat
  | d :: ds, h :: hs =>
    (if d ≤ now then (if now < h.deaduntil then h.deaduntil else 0) else d)
      :: harvestDead now ds hs
  | ds, [] => ds
  | [], _ :: _ => []

/-- `MemcacheClientPool` state: the base pool over `_MemcacheClient`
plus the `_hosts_deaduntil` table (one entry per configured url). -/
structure MemcacheClientPool where
  pool : ConnectionPool MClient
  hostsDeaduntil : List Nat
deriving DecidableEq, Repr

/-- Acquisition from `MemcacheClientPool`: the base `acquire` (reuse the
newest idle client or create a fresh one) followed by
`MemcacheClientPool._get`'s propagation of the tracker snapshot into
the client's hosts.  (The `except` re-put path of `_get` is unreachable
here: the propagation loop cannot raise in the model.) -/
def MemcacheClientPool.get (now : Nat) (st : MemcacheClientPool) :
    AcquireResult MClient × MemcacheClientPool :=
  match acquireConn (some (newMClient st.hostsDeaduntil.length)) now st.pool with
  | (AcquireResult.ok conn, p1) =>
    (AcquireResult.ok
        { conn with servers := propagateDead st.hostsDeaduntil conn.servers },
      { st with pool := p1 })
  | (r, p1) => (r, { st with pool := p1 })

/-- The release path for `MemcacheClientPool`: `queue.Queue.put` raises
`queue.Full` exactly as in the base pool (then the client is destroyed
and neither the harvest loop nor `_put`'s bookkeeping runs); otherwise
`MemcacheClientPool._put` harvests dead-node state from the client and
then, in its `finally`, appends the client with a fresh expiry and
decrements `_acquired`. -/
def MemcacheClientPool.put (now : Nat) (conn : MClient) (st : MemcacheClientPool) :
    MemcacheClientPool × Bool :=
  if st.pool.maxsize ≠ 0 ∧ (st.pool.maxsize : Int) ≤ qsize st.pool then
    (st, true)
  else
    ({ pool := { st.pool with
          queue := st.pool.queue ++ [⟨now + st.pool.unusedTimeout, conn⟩],
          acquired := st.pool.acquired - 1 },
       hostsDeaduntil := harvestDead now st.hostsDeaduntil conn.servers }, false)

theorem harvestDead_length (now : Nat) (ds : List Nat) (hs : List Host) :
    (harvestDead now ds hs).length = ds.length := by
  induction ds generalizing hs with
  | nil => cases hs <;> simp [harvestDead]
  | cons d ds ih =>
    cases hs with
    | nil => simp [harvestDead]
    | cons h0 hs => simp [harvestDead, ih]

theorem harvestDead_keep (now : Nat) (ds : List Nat) (hs : List Host) (i v : Nat)
    (hv : ds[i]? = some v) (hlt : now < v) :
    (harvestDead now ds hs)[i]? = some v := by
  induction ds generalizing hs i with
  | nil => simp at hv
  | cons d ds ih =>
    cases hs with
    | nil => simpa [harvestDead] using hv
    | cons h0 hs =>
      cases i with
      | zero =>
        simp only [List.getElem?_cons_zero, Option.some.injEq] at hv
        subst hv
        have hnot : ¬ d ≤ now := by omega
        simp [harvestDead, hnot]
      | succ i =>
        simp only [List.getElem?_cons_succ] at hv
        simpa [harvestDead] using ih hs i hv

theorem harvestDead_stale (now : Nat) (ds : List Nat) (hs : List Host) (i d : Nat)
    (hh : Host) (hd : ds[i]? = some d) (hhs : hs[i]? = some hh) (hstale : d ≤ now) :
    (harvestDead now ds hs)[i]? =
      some (if now < hh.deaduntil then hh.deaduntil else 0) := by
  induction ds generalizing hs i with
  | nil => simp at hd
  | cons d0 ds ih =>
    cases hs with
    | nil => simp at hhs
    | cons h0 hs =>
      cases i with
      | zero =>
        simp only [List.getElem?_cons_zero, Option.some.injEq] at hd hhs
        subst hd
        subst hhs
        simp [harvestDead, hstale]
      | succ i =>
        simp only [List.getElem?_cons_succ] at hd hhs
        simpa [harvestDead] using ih hs i hd hhs

theorem propagateDead_length (ds : List Nat) (hs : List Host) :
    (propagateDead ds hs).length = hs.length := by
  induction ds generalizing hs with
  | nil => cases hs <;> simp [propagateDead]
  | cons d ds ih =>
    cases hs with
    | nil => simp [propagateDead]
    | cons h0 hs => simp [propagateDead, ih]

theorem propagateDead_getElem (ds : List Nat) (hs : List Host) (i d : Nat)
    (hd : ds[i]? = some d) (hlen : i < hs.length) :
    (propagateDead ds hs)[i]? = some ⟨d⟩ := by
  induction ds generalizing hs i with
  | nil => simp at hd
  | cons d0 ds ih =>
    cases hs with
    | nil => simp at hlen
    | cons h0 hs =>
      cases i with
      | zero =>
        simp only [List.getElem?_cons_zero, Option.some.injEq] at hd
        subst hd
        simp [propagateDead]
      | succ i =>
        simp only [List.getElem?_cons_succ] at hd
        simp only [List.length_cons] at hlen
        simpa [propagateDead] using ih hs i hd (by omega)

/-- The non-blocking put never raises `queue.Full` when the released
client is counted outstanding (`_acquired >= 1`). -/
theorem mput_not_refused {st : MemcacheClientPool} {conn : MClient} {now : Nat}
    (hacq : 1 ≤ st.pool.acquired) :
    MemcacheClientPool.put now conn st =
      ({ pool := { st.pool with
            queue := st.pool.queue ++ [⟨now + st.pool.unusedTimeout, conn⟩],
            acquired := st.pool.acquired - 1 },
          hostsDeaduntil := harvestDead now st.hostsDeaduntil conn.servers }, false) := by
  have hfull : ¬ (st.pool.maxsize ≠ 0 ∧ (st.pool.maxsize : Int) ≤ qsize st.pool) := by
    rintro ⟨hm, hle⟩
    unfold qsize at hle
    rw [if_pos hm] at hle
    omega
  unfold MemcacheClientPool.put
  rw [if_neg hfull]

/-- A successful acquisition hands out a client whose host list is the
tracker snapshot pushed onto the popped or created client's hosts. -/
theorem mget_ok_servers {now : Nat} {st : MemcacheClientPool} {c : MClient}
    (h : (MemcacheClientPool.get now st).1 = AcquireResult.ok c) :
    ∃ conn0 : MClient,
      c.servers = propagateDead st.hostsDeaduntil conn0.servers := by
  unfold MemcacheClientPool.get at h
  cases hacq : acquireConn (some (newMClient st.hostsDeaduntil.length)) now st.pool with
  | mk r p1 =>
    rw [hacq] at h
    cases r with
    | ok conn =>
      dsimp only at h
      refine ⟨conn, ?_⟩
      have := (AcquireResult.ok.injEq _ _).mp h.symm
      rw [this]
    | queueEmpty => simp at h
    | createFailed => simp at h

/-- Acquisition does not touch the tracker. -/
theorem mget_tracker (now : Nat) (st : MemcacheClientPool) :
    (MemcacheClientPool.get now st).2.hostsDeaduntil = st.hostsDeaduntil := by
  unfold MemcacheClientPool.get
  cases acquireConn (some (newMClient st.hostsDeaduntil.length)) now st.pool with
  | mk r p1 => cases r <;> rfl

/-- One sequential operation on a `MemcacheClientPool` at time `now`: an
acquisition (base acquire plus `_get`'s propagation) or a release
(`_put`'s harvest plus the base put). -/
inductive MStep (now : Nat) : MemcacheClientPool → MemcacheClientPool → Prop
  | get (st : MemcacheClientPool) : MStep now st (MemcacheClientPool.get now st).2
  | put (conn : MClient) (st : MemcacheClientPool) :
      MStep now st (MemcacheClientPool.put now conn st).1

/-- Any number of pool operations, each at a time strictly before `tt`. -/
inductive MStepsBefore (tt : Nat) : MemcacheClientPool → MemcacheClientPool → Prop
  | refl (st : MemcacheClientPool) : MStepsBefore tt st st
  | tail {a b c : MemcacheClientPool} (now : Nat) :
      MStepsBefore tt a b → now < tt → MStep now b c → MStepsBefore tt a c

theorem mstep_keeps_dead {tt now i v : Nat} {a b : MemcacheClientPool}
    (hstep : MStep now a b) (hnow : now < tt)
    (hv : a.hostsDeaduntil[i]? = some v) (hle : tt ≤ v) :
    b.hostsDeaduntil[i]? = some v := by
  cases hstep with
  | get => rw [mget_tracker]; exact hv
  | put conn =>
    unfold MemcacheClientPool.put
    by_cases hf : a.pool.maxsize ≠ 0 ∧ (a.pool.maxsize : Int) ≤ qsize a.pool
    · rw [if_pos hf]
      exact hv
    · rw [if_neg hf]
      exact harvestDead_keep now _ _ i v hv (by omega)

theorem msteps_keep_dead {tt i v : Nat} {a b : MemcacheClientPool}
    (h : MStepsBefore tt a b)
    (hv : a.hostsDeaduntil[i]? = some v) (hle : tt ≤ v) :
    b.hostsDeaduntil[i]? = some v := by
  induction h with
  | refl => exact hv
  | tail now hab hlt hstep ih => exact mstep_keeps_dead hstep hlt ih hle

/-- Claim C2: dead-node propagation end to end.  A client released (as
an outstanding client, `_acquired >= 1`) at time `t0` reports host `i`
dead until `tt > t0` while the tracker's own entry for `i` is stale
(`<= t0`); then after any further operations, each at a time `< tt`
(so no intervening release can reset the entry), a client acquired at
time `now < tt` has host `i` marked dead until a time `>= tt`. -/
theorem dead_node_propagation
    (st st2 : MemcacheClientPool) (conn c : MClient) (i t0 tt now : Nat)
    (hacq : 1 ≤ st.pool.acquired)
    (d0 : Nat) (hd0 : st.hostsDeaduntil[i]? = some d0) (hstale : d0 ≤ t0)
    (hrep : conn.servers[i]? = some ⟨tt⟩) (ht0 : t0 < tt)
    (hsteps : MStepsBefore tt (MemcacheClientPool.put t0 conn st).1 st2)
    (hget : (MemcacheClientPool.get now st2).1 = AcquireResult.ok c)
    (hnow : now < tt) (hlen : i < c.servers.length) :
    ∃ hh : Host, c.servers[i]? = some hh ∧ tt ≤ hh.deaduntil := by
  have h1 : (MemcacheClientPool.put t0 conn st).1.hostsDeaduntil =
      harvestDead t0 st.hostsDeaduntil conn.servers := by
    rw [mput_not_refused hacq]
  have h2 : (MemcacheClientPool.put t0 conn st).1.hostsDeaduntil[i]? = some tt := by
    rw [h1]
    have := harvestDead_stale t0 st.hostsDeaduntil conn.servers i d0 ⟨tt⟩ hd0 hrep hstale
    rw [this]
    rw [if_pos (show t0 < Host.deaduntil ⟨tt⟩ from ht0)]
  have h3 : st2.hostsDeaduntil[i]? = some tt :=
    msteps_keep_dead hsteps h2 (le_refl _)
  obtain ⟨conn0, hc⟩ := mget_ok_servers hget
  have hlen0 : i < conn0.servers.length := by
    have := propagateDead_length st2.hostsDeaduntil conn0.servers
    rw [hc] at hlen
    omega
  have h4 : c.servers[i]? = some ⟨tt⟩ := by
    rw [hc]
    exact propagateDead_getElem st2.hostsDeaduntil conn0.servers i tt h3 hlen0
  exact ⟨⟨tt⟩, h4, le_refl _⟩

/-- Witness for `dead_node_propagation`: one release of a client
reporting host 0 dead until 100 into a fresh capacity-2 pool, no
intermediate steps, then an acquisition at time 50 hands out a client
whose host 0 is dead until 100. -/
theorem dead_node_propagation_witness :
    ∃ hh : Host,
      ((⟨[⟨100⟩]⟩ : MClient).servers)[0]? = some hh ∧ 100 ≤ hh.deaduntil := by
  have h := dead_node_propagation
    ⟨⟨2, 1000, 1, []⟩, [0]⟩
    (MemcacheClientPool.put 10 ⟨[⟨100⟩]⟩ ⟨⟨2, 1000, 1, []⟩, [0]⟩).1
    ⟨[⟨100⟩]⟩ ⟨[⟨100⟩]⟩ 0 10 100 50
    (by decide) 0 (by decide) (by decide) (by decide) (by decide)
    (MStepsBefore.refl _) (by decide) (by decide) (by decide)
  exact h

/-- Claim C10: immediately after a client is handed out by
`MemcacheClientPool`, every host index covered by the tracker carries
exactly the tracker's `deaduntil[i]` — in particular a live tracker
entry (0 or in the past) overwrites the client's own dead mark for that
host even if that mark pointed into the future. -/
theorem acquire_installs_tracker_snapshot
    (now : Nat) (st : MemcacheClientPool) (c : MClient)
    (hget : (MemcacheClientPool.get now st).1 = AcquireResult.ok c)
    (i d : Nat) (hd : st.hostsDeaduntil[i]? = some d)
    (hlen : i < c.servers.length) :
    c.servers[i]? = some ⟨d⟩ := by
  obtain ⟨conn0, hc⟩ := mget_ok_servers hget
  have hlen0 : i < conn0.servers.length := by
    have := propagateDead_length st.hostsDeaduntil conn0.servers
    rw [hc] at hlen
    omega
  rw [hc]
  exact propagateDead_getElem st.hostsDeaduntil conn0.servers i d hd hlen0

/-- Witness for `acquire_installs_tracker_snapshot`: the tracker says
host 0 is live (entry 0), the idle client had marked host 0 dead until
100; the acquired client's host 0 mark is overwritten with 0. -/
theorem acquire_installs_tracker_snapshot_witness :
    ((⟨[⟨0⟩]⟩ : MClient).servers)[0]? = some ⟨0⟩ := by
  have h := acquire_installs_tracker_snapshot 50
    ⟨⟨2, 1000, 0, [⟨9999, ⟨[⟨100⟩]⟩⟩]⟩, [0]⟩ ⟨[⟨0⟩]⟩
    (by decide) 0 0 (by decide) (by decide)
  exact h

/-- Counterexample to claim C3 as stated: the tracker entry for host 0
is 100 and still in the future at release time 50; the released client
reports dead-until 200, yet the tracker keeps 100 instead of
`max 100 200` ("Do nothing if we already know this host is dead"). -/
theorem tracker_update_not_max :
    (MemcacheClientPool.put 50 ⟨[⟨200⟩]⟩ ⟨⟨2, 7, 1, []⟩, [100]⟩).1.hostsDeaduntil ≠
      [Nat.max 100 200] := by decide

/-- Claim C3 (amended): on release of an outstanding client, a stale
tracker entry (`<= now`) becomes the maximum of itself and the client's
report when the report is in the future (the report, since the stale
entry is not above `now`), and is reset to 0 when the report is also
stale; a tracker entry still in the future is left unchanged — so a
report never lowers a future tracker timestamp, but it never raises one
either. -/
theorem tracker_update_on_release
    (st : MemcacheClientPool) (conn : MClient) (now i : Nat)
    (hacq : 1 ≤ st.pool.acquired)
    (d : Nat) (hd : st.hostsDeaduntil[i]? = some d)
    (hh : Host) (hhs : conn.servers[i]? = some hh) :
    ((d ≤ now ∧ now < hh.deaduntil) →
      (MemcacheClientPool.put now conn st).1.hostsDeaduntil[i]? =
        some (Nat.max d hh.deaduntil)) ∧
    ((d ≤ now ∧ hh.deaduntil ≤ now) →
      (MemcacheClientPool.put now conn st).1.hostsDeaduntil[i]? = some 0) ∧
    (now < d →
      (MemcacheClientPool.put now conn st).1.hostsDeaduntil[i]? = some d) := by
  have h1 : (MemcacheClientPool.put now conn st).1.hostsDeaduntil =
      harvestDead now st.hostsDeaduntil conn.servers := by
    rw [mput_not_refused hacq]
  refine ⟨?_, ?_, ?_⟩
  · rintro ⟨hstale, hfut⟩
    have hmax : Nat.max d hh.deaduntil = hh.deaduntil :=
      Nat.max_eq_right (by omega)
    rw [h1, harvestDead_stale now _ _ i d hh hd hhs hstale, if_pos hfut, hmax]
  · rintro ⟨hstale, hpast⟩
    rw [h1, harvestDead_stale now _ _ i d hh hd hhs hstale,
      if_neg (by omega)]
  · intro hfut
    rw [h1]
    exact harvestDead_keep now _ _ i d hd hfut

/-- Witness for `tracker_update_on_release`: stale entry 10, report 100
at time 50; the entry becomes `max 10 100 = 100`. -/
theorem tracker_update_on_release_witness :
    (MemcacheClientPool.put 50 ⟨[⟨100⟩]⟩
        ⟨⟨2, 7, 1, []⟩, [10]⟩).1.hostsDeaduntil[0]? = some (Nat.max 10 100) := by
  have h := tracker_update_on_release ⟨⟨2, 7, 1, []⟩, [10]⟩ ⟨[⟨100⟩]⟩ 50 0
    (by decide) 10 (by decide) ⟨100⟩ (by decide)
  exact h.1 ⟨by decide, by decide⟩

section Dictionary

variable {K V : Type} [DecidableEq K]

/-- `DictCacheBackend.cache` is a python dict from keys to pairs
`(value, timeout)` (`timeout` an absolute expiry; 0 = never expires).
It is modelled as an association list with at most one entry per key in
pool use; lookup returns the first matching entry. -/
def dictLookup : List (K × V) → K → Option V
  | [], _ => none
  | (k, v) :: rest, key => if k = key then some v else dictLookup rest key

/-- `self.cache[key] = value`: replace an existing entry in place, else
append (python dicts keep insertion order). -/
def dictStore : List (K × V) → K → V → List (K × V)
  | [], key, val => [(key, val)]
  | (k, v) :: rest, key, val =>
    if k = key then (k, val) :: rest else (k, v) :: dictStore rest key val

/-- `DictCacheBackend._clear`: expunge every entry whose timeout is
positive and has passed (`timeout > 0 and now >= timeout`). -/
def dictClear (now : Nat) (cache : List (K × (V × Nat))) : List (K × (V × Nat)) :=
  cache.filter fun e => decide ¬ (0 < e.2.2 ∧ e.2.2 ≤ now)

/-- `DictCacheBackend.set_multi`: first `_clear()` expunges expired
entries, then every key of the mapping is stored with its value and the
common fresh timeout (`utcnow_ts() + expiration_time` when
`expiration_time > 0`, else 0). -/
def setMulti (now expirationTime : Nat) (mapping : List (K × V))
    (cache : List (K × (V × Nat))) : List (K × (V × Nat)) :=
  let cache1 := dictClear now cache
  let timeout := if 0 < expirationTime then now + expirationTime else 0
  mapping.foldl (fun c kv => dictStore c kv.1 (kv.2, timeout)) cache1

theorem dictLookup_store_self (c : List (K × V)) (k : K) (v : V) :
    dictLookup (dictStore c k v) k = some v := by
  induction c with
  | nil => simp [dictStore, dictLookup]
  | cons e rest ih =>
    obtain ⟨k0, v0⟩ := e
    by_cases h : k0 = k
    · simp [dictStore, dictLookup, h]
    · simp [dictStore, dictLookup, h, ih]

theorem dictLookup_store_ne (c : List (K × V)) (k k2 : K) (v : V) (h : k ≠ k2) :
    dictLookup (dictStore c k v) k2 = dictLookup c k2 := by
  induction c with
  | nil => simp [dictStore, dictLookup, h]
  | cons e rest ih =>
    obtain ⟨k0, v0⟩ := e
    by_cases h0 : k0 = k
    · subst h0
      simp [dictStore, dictLookup, h]
    · simp [dictStore, dictLookup, h0, ih]

theorem setFold_lookup_not_mem (timeout : Nat) (mapping : List (K × V))
    (c : List (K × (V × Nat))) (k : K) (h : ∀ kv ∈ mapping, kv.1 ≠ k) :
    dictLookup (mapping.foldl (fun c kv => dictStore c kv.1 (kv.2, timeout)) c) k =
      dictLookup c k := by
  induction mapping generalizing c with
  | nil => rfl
  | cons kv rest ih =>
    simp only [List.foldl_cons]
    rw [ih _ fun e he => h e (List.mem_cons_of_mem _ he)]
    exact dictLookup_store_ne _ _ _ _ (h kv (List.mem_cons_self _ _))

theorem setFold_lookup_mem (timeout : Nat) (mapping : List (K × V))
    (c : List (K × (V × Nat))) (k : K) (v : V)
    (hnd : (mapping.map Prod.fst).Nodup) (hmem : (k, v) ∈ mapping) :
    dictLookup (mapping.foldl (fun c kv => dictStore c kv.1 (kv.2, timeout)) c) k =
      some (v, timeout) := by
  induction mapping generalizing c with
  | nil => cases hmem
  | cons kv rest ih =>
    simp only [List.map_cons, List.nodup_cons] at hnd
    simp only [List.foldl_cons]
    rcases List.mem_cons.mp hmem with heq | hmem2
    · subst heq
      have hk : ∀ e ∈ rest, e.1 ≠ k := by
        intro e he hek
        exact hnd.1 (List.mem_map.mpr ⟨e, he, hek⟩)
      rw [setFold_lookup_not_mem timeout rest _ k hk]
      exact dictLookup_store_self _ _ _
    · exact ih _ hnd.2 hmem2

end Dictionary

/-- Counterexample to claim C9 as stated: key 0 is not in the mapping
passed to `set_multi`, yet its entry `(1, 5)` (expired at `now = 10`) is
expunged by the `_clear()` call rather than kept untouched. -/
theorem set_multi_frame_counterexample :
    dictLookup (setMulti 10 1 [((1 : Nat), (2 : Nat))] [(0, (1, 5))]) 0 = none ∧
    dictLookup [((0 : Nat), ((1 : Nat), 5))] 0 = some (1, 5) := by decide

/-- Claim C9 (amended): for `set_multi` with a mapping with distinct
keys (a python dict): every key of the mapping is inserted or replaced
with its new value (under the fresh common timeout); a key not in the
mapping keeps exactly the entry it has after `_clear()` — its previous
entry if that was unexpired or timeoutless, while an expired entry
(`timeout > 0` and `now >= timeout`) has been expunged. -/
theorem set_multi_frame {K V : Type} [DecidableEq K]
    (now expirationTime : Nat) (mapping : List (K × V))
    (cache : List (K × (V × Nat))) (k : K)
    (hnd : (mapping.map Prod.fst).Nodup) :
    (∀ v : V, (k, v) ∈ mapping →
      dictLookup (setMulti now expirationTime mapping cache) k =
        some (v, if 0 < expirationTime then now + expirationTime else 0)) ∧
    ((∀ kv ∈ mapping, kv.1 ≠ k) →
      dictLookup (setMulti now expirationTime mapping cache) k =
        dictLookup (dictClear now cache) k) := by
  constructor
  · intro v hmem
    exact setFold_lookup_mem _ mapping _ k v hnd hmem
  · intro hk
    exact setFold_lookup_not_mem _ mapping _ k hk

/-- Witness for `set_multi_frame`: mapping `{1: 2}` at `now = 10` with
`expiration_time = 1`; key 1 gets `(2, 11)`, the untouched unexpired
key 0 keeps `(3, 0)`. -/
theorem set_multi_frame_witness :
    dictLookup (setMulti 10 1 [((1 : Nat), (2 : Nat))]
        [(0, (3, 0)), (5, (1, 5))]) 1 = some (2, 11) ∧
    dictLookup (setMulti 10 1 [((1 : Nat), (2 : Nat))]
        [(0, (3, 0)), (5, (1, 5))]) 0 = some (3, 0) := by
  have h1 := set_multi_frame 10 1 [((1 : Nat), (2 : Nat))]
    [(0, (3, 0)), (5, (1, 5))] 1 (by decide)
  have h2 := set_multi_frame 10 1 [((1 : Nat), (2 : Nat))]
    [(0, (3, 0)), (5, (1, 5))] 0 (by decide)
  refine ⟨?_, ?_⟩
  · exact (h1.1 2 (by decide)).trans (by decide)
  · exact (h2.2 (by decide)).trans (by decide)

end OsloCache
